import Mathlib

/-!
Verification development for the Multimap storage engine.

Multimap is a persistent 1-to-N key-value store.  Each key maps to an
append-ordered list of opaque byte strings; lists are fragmented into
fixed-size blocks that are committed to an append-only block store, with the
last (tail) block kept in memory.  This file gives a shallow embedding of the
per-list storage engine (`List::Add`, `List::Flush`, iteration, tombstoning),
the delta-compressed block-id vector (`UintVector::add`), the partition key
table serialisation (`Table::close` / `Table::open`), the shard-level value
replacement (`Shard::replace`), the hash dispatch of the top-level map
(`Map::getPartition`) and the version check (`Version::checkCompatibility`),
and proves or refutes the specified properties of those operations.

Components whose implementation is not part of the analysed sources (the
`Block`, `Varint` and iterator internals) are modelled from the written
specification; each such definition carries a doc comment beginning with
"Modelled from the spec:".
-/

namespace Multimap

/-- A byte string.  Keys and values are opaque byte sequences; we model a byte
as a natural number (the source reads and writes raw `char` data, and no
arithmetic on bytes matters to the properties proved here). -/
abbrev Bytes := List Nat

/-- Modelled from the spec: the byte length of the `Varint` encoding of `n`
(the Varint implementation is not among the analysed sources).  A varint
encodes an unsigned value little-endian in 7-bit groups with the high bit of
each byte as continuation flag, using 1..5 bytes for a 32-bit value. -/
def varintLen (n : Nat) : Nat :=
  if n < 128 then 1
  else if n < 16384 then 2
  else if n < 2097152 then 3
  else if n < 268435456 then 4
  else 5

theorem varintLen_mono {m n : Nat} (h : m ≤ n) : varintLen m ≤ varintLen n := by
  unfold varintLen
  split_ifs <;> omega

theorem varintLen_pos (n : Nat) : 0 < varintLen n := by
  unfold varintLen
  split_ifs <;> omega

/-- Modelled from the spec: a `Block` (the Block implementation is not among
the analysed sources).  A block is a fixed-size byte buffer carrying a tightly
packed sequence of entries `[varint(length * 2 + tombstone bit), value bytes]`.
We keep the logical content: the entry sequence, each entry a value together
with its tombstone flag.  The number of bytes an entry occupies is derived
from the value below. -/
structure Block where
  entries : List (Bytes × Bool)
deriving Repr, DecidableEq

/-- Modelled from the spec: the per-value header is the varint of the length
with the tombstone bit folded into its low bit, so it occupies
`varintLen (2 * length)` bytes (setting the tombstone bit in place never
changes the header size). -/
def headerLen (v : Bytes) : Nat := varintLen (2 * v.length)

/-- Bytes occupied by one block entry: header plus value bytes. -/
def entryBytes (e : Bytes × Bool) : Nat := headerLen e.1 + e.1.length

/-- Bytes of a block already in use (the `next_offset` of the block). -/
def Block.usedBytes (b : Block) : Nat := (b.entries.map entryBytes).sum

/-- The empty (freshly allocated, zero-filled) block. -/
def Block.empty : Block := ⟨[]⟩

/-- Modelled from the spec: `Block::TryAdd` (not among the analysed sources).
Appends the value with its header if it still fits into the block, else fails;
a block is full when the next value plus its header would not fit. -/
def Block.tryAdd (blockSize : Nat) (b : Block) (v : Bytes) : Option Block :=
  if b.usedBytes + entryBytes (v, false) ≤ blockSize
  then some ⟨b.entries ++ [(v, false)]⟩
  else none

/-- Modelled from the spec: `Block::max_value_size(block_size)` (referenced by
`Shard::max_value_size` in the sources but itself not among them): the block
size minus the maximal per-value header a value bounded by the block size can
need. -/
def maxValueSize (blockSize : Nat) : Nat := blockSize - varintLen (2 * blockSize)

/-- Runtime state of a per-key list, embedding `List` from
`sources/cpp/multimap/internal/List.cpp`: the committed blocks (in the order
their ids were recorded in `head_.block_ids`), the optional in-memory tail
block `block_` (`none` when `block_.has_data()` is false), and the two head
counters. -/
structure ListState where
  committed : List Block
  tail : Option Block
  total : Nat
  deleted : Nat
deriving Repr, DecidableEq

/-- A freshly constructed, empty list. -/
def ListState.empty : ListState := ⟨[], none, 0, 0⟩

/-- `List::Add` from `sources/cpp/multimap/internal/List.cpp` lines 104-120:
allocate the tail block if absent, try to add the value; on overflow commit
the tail block to the store (recording its id), allocate a fresh block and
retry, with `assert(ok)` on the retry.  The `none` result models the assertion
firing (the value does not fit even into a fresh block); the increment of
`head_.num_values_total` happens on every successful path. -/
def ListState.add (blockSize : Nat) (l : ListState) (v : Bytes) :
    Option ListState :=
  let t := l.tail.getD Block.empty
  match t.tryAdd blockSize v with
  | some t' => some { l with tail := some t', total := l.total + 1 }
  | none =>
    match Block.empty.tryAdd blockSize v with
    | some t' =>
      some { committed := l.committed ++ [t], tail := some t',
             total := l.total + 1, deleted := l.deleted }
    | none => none

/-- `List::Flush` from `sources/cpp/multimap/internal/List.cpp` lines 122-127:
if the tail block holds data, commit it and clear the tail. -/
def ListState.flush (l : ListState) : ListState :=
  match l.tail with
  | none => l
  | some t => { l with committed := l.committed ++ [t], tail := none }

/-- The entries of the optional tail block. -/
def tailEntries (l : ListState) : List (Bytes × Bool) :=
  (l.tail.map Block.entries).getD []

/-- All entries of a list in storage order: the committed blocks first (in
block-id order), then the in-memory tail. -/
def ListState.allEntries (l : ListState) : List (Bytes × Bool) :=
  (l.committed.map Block.entries).flatten ++ tailEntries l

/-- Modelled from the spec: `List::Iter` (the iterator internals are not among
the analysed sources).  Iteration yields, in insertion order, the values that
are not tombstoned, reading first the committed blocks via the store and then
the in-memory tail. -/
def ListState.iterate (l : ListState) : List Bytes :=
  (l.allEntries.filter (fun e => !e.2)).map Prod.fst

/-- Adding a sequence of values one by one (`put(K,V1) .. put(K,Vn)`). -/
def ListState.addAll (blockSize : Nat) (l : ListState) (vs : List Bytes) :
    Option ListState :=
  vs.foldlM (ListState.add blockSize) l

theorem add_allEntries {blockSize : Nat} {l l' : ListState} {v : Bytes}
    (h : l.add blockSize v = some l') :
    l'.allEntries = l.allEntries ++ [(v, false)] ∧
    l'.total = l.total + 1 ∧ l'.deleted = l.deleted := by
  unfold ListState.add at h
  cases htry : Block.tryAdd blockSize (l.tail.getD Block.empty) v with
  | some t' =>
    simp only [htry] at h
    cases h
    unfold Block.tryAdd at htry
    split_ifs at htry
    cases htry
    refine ⟨?_, rfl, rfl⟩
    cases ht : l.tail with
    | none =>
      simp [ListState.allEntries, tailEntries, ht, Block.empty]
    | some t =>
      simp [ListState.allEntries, tailEntries, ht]
  | none =>
    simp only [htry] at h
    cases hfresh : Block.tryAdd blockSize Block.empty v with
    | some t' =>
      simp only [hfresh] at h
      cases h
      unfold Block.tryAdd at hfresh
      split_ifs at hfresh
      cases hfresh
      refine ⟨?_, rfl, rfl⟩
      cases ht : l.tail with
      | none =>
        simp [ListState.allEntries, tailEntries, ht, Block.empty]
      | some t =>
        simp [ListState.allEntries, tailEntries, ht, Block.empty]
    | none => simp [hfresh] at h

theorem flush_allEntries (l : ListState) :
    l.flush.allEntries = l.allEntries ∧
    l.flush.total = l.total ∧ l.flush.deleted = l.deleted := by
  unfold ListState.flush
  cases ht : l.tail with
  | none => exact ⟨rfl, rfl, rfl⟩
  | some t => simp [ListState.allEntries, tailEntries, ht]

theorem varintLen_two_le {blockSize : Nat} (h : 0 < blockSize) :
    varintLen (2 * blockSize) ≤ blockSize := by
  unfold varintLen
  split_ifs <;> omega

theorem tryAdd_empty_of_le {blockSize : Nat} {v : Bytes} (h0 : 0 < blockSize)
    (hv : v.length ≤ maxValueSize blockSize) :
    Block.tryAdd blockSize Block.empty v = some ⟨[(v, false)]⟩ := by
  have hmono : varintLen (2 * v.length) ≤ varintLen (2 * blockSize) :=
    varintLen_mono (by unfold maxValueSize at hv; omega)
  have hcap := varintLen_two_le h0
  unfold Block.tryAdd
  rw [if_pos]
  · rfl
  · simp only [Block.usedBytes, Block.empty, List.map_nil, List.sum_nil,
      entryBytes, headerLen]
    unfold maxValueSize at hv
    omega

theorem add_isSome_of_le {blockSize : Nat} (l : ListState) {v : Bytes}
    (h0 : 0 < blockSize) (hv : v.length ≤ maxValueSize blockSize) :
    ∃ l', l.add blockSize v = some l' := by
  cases htry : Block.tryAdd blockSize (l.tail.getD Block.empty) v with
  | some t' =>
    exact ⟨{ l with tail := some t', total := l.total + 1 },
      by simp [ListState.add, htry]⟩
  | none =>
    exact ⟨{ committed := l.committed ++ [l.tail.getD Block.empty],
             tail := some ⟨[(v, false)]⟩, total := l.total + 1,
             deleted := l.deleted },
      by simp [ListState.add, htry, tryAdd_empty_of_le h0 hv]⟩

theorem addAll_allEntries {blockSize : Nat} (vs : List Bytes)
    (h0 : 0 < blockSize) (hs : ∀ v ∈ vs, v.length ≤ maxValueSize blockSize)
    (l : ListState) :
    ∃ l', l.addAll blockSize vs = some l' ∧
      l'.allEntries = l.allEntries ++ vs.map (fun v => (v, false)) ∧
      l'.total = l.total + vs.length ∧ l'.deleted = l.deleted := by
  induction vs generalizing l with
  | nil => exact ⟨l, rfl, by simp, by simp, rfl⟩
  | cons v vs ih =>
    obtain ⟨l1, h1⟩ := add_isSome_of_le l h0 (hs v (by simp))
    obtain ⟨he, htot, hdel⟩ := add_allEntries h1
    obtain ⟨l2, h2, he2, htot2, hdel2⟩ :=
      ih (fun w hw => hs w (by simp [hw])) l1
    refine ⟨l2, ?_, ?_, ?_, ?_⟩
    · show (v :: vs).foldlM (ListState.add blockSize) l = some l2
      rw [List.foldlM_cons, h1]
      simpa [ListState.addAll] using h2
    · rw [he2, he]; simp
    · rw [htot2, htot, List.length_cons]; omega
    · rw [hdel2, hdel]

theorem filter_map_false (vs : List Bytes) :
    ((vs.map (fun v => (v, false))).filter (fun e => !e.2)).map Prod.fst
      = vs := by
  induction vs with
  | nil => rfl
  | cons v vs ih => simpa using ih

/-- C1: after `put(K,V1) .. put(K,Vn)` on a fresh key with no removals, the
iterator for `K` yields exactly `V1,...,Vn` in appending order, reading first
the committed blocks and then the in-memory tail. -/
theorem put_sequence_iterates_in_order (blockSize : Nat) (vs : List Bytes)
    (h0 : 0 < blockSize)
    (hs : ∀ v ∈ vs, v.length ≤ maxValueSize blockSize) :
    ∃ l', ListState.empty.addAll blockSize vs = some l' ∧ l'.iterate = vs := by
  obtain ⟨l', hall, he, -, -⟩ := addAll_allEntries vs h0 hs ListState.empty
  refine ⟨l', hall, ?_⟩
  have hempty : ListState.empty.allEntries = [] := rfl
  rw [ListState.iterate, he, hempty]
  simpa using filter_map_false vs

theorem put_sequence_iterates_in_order_witness :
    ∃ l', ListState.empty.addAll 512 [[1, 2], [3]] = some l' ∧
      l'.iterate = [[1, 2], [3]] :=
  put_sequence_iterates_in_order 512 [[1, 2], [3]] (by decide) (by decide)

theorem tailEntries_eq_getD (l : ListState) :
    tailEntries l = (l.tail.getD Block.empty).entries := by
  cases ht : l.tail with
  | none => simp [tailEntries, ht, Block.empty]
  | some t => simp [tailEntries, ht]

/-- C4: an accepted value lands entirely within one block.  Either it fits
into the current tail block and is appended there, or the tail block is
committed to the store and the value is written from the start of a fresh
block; it never spans a block boundary. -/
theorem accepted_value_in_one_block (blockSize : Nat) (l : ListState)
    (v : Bytes) (h0 : 0 < blockSize)
    (hv : v.length ≤ maxValueSize blockSize) :
    ∃ l', l.add blockSize v = some l' ∧
      ((l'.committed = l.committed ∧
        tailEntries l' = tailEntries l ++ [(v, false)]) ∨
       (l'.committed = l.committed ++ [l.tail.getD Block.empty] ∧
        tailEntries l' = [(v, false)])) := by
  cases htry : Block.tryAdd blockSize (l.tail.getD Block.empty) v with
  | some t' =>
    have hadd : l.add blockSize v =
        some { l with tail := some t', total := l.total + 1 } := by
      simp [ListState.add, htry]
    refine ⟨_, hadd, Or.inl ⟨rfl, ?_⟩⟩
    unfold Block.tryAdd at htry
    split_ifs at htry
    cases htry
    simp [tailEntries, tailEntries_eq_getD l, Block.empty]
  | none =>
    have hadd : l.add blockSize v =
        some { committed := l.committed ++ [l.tail.getD Block.empty],
               tail := some ⟨[(v, false)]⟩, total := l.total + 1,
               deleted := l.deleted } := by
      simp [ListState.add, htry, tryAdd_empty_of_le h0 hv]
    exact ⟨_, hadd, Or.inr ⟨rfl, by simp [tailEntries]⟩⟩

theorem accepted_value_in_one_block_witness :
    ∃ l', ListState.empty.add 512 [7] = some l' ∧
      ((l'.committed = ListState.empty.committed ∧
        tailEntries l' = tailEntries ListState.empty ++ [([7], false)]) ∨
       (l'.committed = ListState.empty.committed ++
          [ListState.empty.tail.getD Block.empty] ∧
        tailEntries l' = [([7], false)])) :=
  accepted_value_in_one_block 512 ListState.empty [7] (by decide) (by decide)

/-- Flip the tombstone flag of the entry at position `j` of an entry sequence
(a no-op past the end). -/
def markEntries (es : List (Bytes × Bool)) (j : Nat) : List (Bytes × Bool) :=
  match es[j]? with
  | some e => es.set j (e.1, true)
  | none => es

/-- Tombstone the entry at global position `j` within a sequence of blocks,
rewriting the affected block (as `store.replace` does for a committed block). -/
def markInBlocks : List Block → Nat → List Block
  | [], _ => []
  | b :: bs, j =>
    if j < b.entries.length then ⟨markEntries b.entries j⟩ :: bs
    else b :: markInBlocks bs (j - b.entries.length)

/-- `List::Iter<false>::Delete` from `sources/cpp/multimap/internal/List.cpp`
lines 74-80 together with the write-back of `UpdateCurrentBlock`: tombstone
the value at global position `j` (committed blocks first, then the in-memory
tail, which is updated in place) and increment `head_.num_values_deleted`. -/
def ListState.markNth (l : ListState) (j : Nat) : ListState :=
  if j < ((l.committed.map Block.entries).flatten).length then
    { l with committed := markInBlocks l.committed j,
             deleted := l.deleted + 1 }
  else
    { l with tail := l.tail.map (fun t =>
        ⟨markEntries t.entries
          (j - ((l.committed.map Block.entries).flatten).length)⟩),
             deleted := l.deleted + 1 }

theorem markEntries_nil (j : Nat) : markEntries [] j = [] := by
  simp [markEntries]

theorem markEntries_cons_succ (x : Bytes × Bool) (xs : List (Bytes × Bool))
    (j : Nat) : markEntries (x :: xs) (j + 1) = x :: markEntries xs j := by
  unfold markEntries
  cases h : xs[j]? with
  | none => simp [h]
  | some e => simp [h]

theorem markEntries_cons_zero (x : Bytes × Bool) (xs : List (Bytes × Bool)) :
    markEntries (x :: xs) 0 = (x.1, true) :: xs := by
  simp [markEntries]

theorem markEntries_append_left (xs ys : List (Bytes × Bool)) (j : Nat)
    (h : j < xs.length) :
    markEntries (xs ++ ys) j = markEntries xs j ++ ys := by
  induction xs generalizing j with
  | nil => simp at h
  | cons x xs ih =>
    cases j with
    | zero => simp [markEntries_cons_zero]
    | succ j =>
      rw [List.cons_append, markEntries_cons_succ, markEntries_cons_succ,
        ih j (by simpa using h), List.cons_append]

theorem markEntries_append_right (xs ys : List (Bytes × Bool)) (j : Nat)
    (h : xs.length ≤ j) :
    markEntries (xs ++ ys) j = xs ++ markEntries ys (j - xs.length) := by
  induction xs generalizing j with
  | nil => simp
  | cons x xs ih =>
    cases j with
    | zero => simp at h
    | succ j =>
      rw [List.cons_append, markEntries_cons_succ, ih j (by simpa using h),
        List.cons_append]
      simp

theorem markInBlocks_flatten (bs : List Block) (j : Nat) :
    ((markInBlocks bs j).map Block.entries).flatten
      = markEntries ((bs.map Block.entries).flatten) j := by
  induction bs generalizing j with
  | nil => simp [markInBlocks, markEntries_nil]
  | cons b bs ih =>
    rw [List.map_cons, List.flatten_cons]
    unfold markInBlocks
    split_ifs with h
    · rw [markEntries_append_left b.entries _ j h]
      simp
    · rw [markEntries_append_right b.entries _ j (by omega), ← ih]
      simp

theorem length_markEntries (es : List (Bytes × Bool)) (j : Nat) :
    (markEntries es j).length = es.length := by
  unfold markEntries
  cases h : es[j]? <;> simp

/-- Number of tombstoned entries of an entry sequence. -/
def countDeleted (es : List (Bytes × Bool)) : Nat :=
  (es.filter (fun e => e.2)).length

theorem countDeleted_markEntries {es : List (Bytes × Bool)} {j : Nat}
    {v : Bytes} (h : es[j]? = some (v, false)) :
    countDeleted (markEntries es j) = countDeleted es + 1 := by
  induction es generalizing j with
  | nil => simp at h
  | cons e es ih =>
    cases j with
    | zero =>
      have he : e = (v, false) := by simpa using h
      subst he
      simp [markEntries_cons_zero, countDeleted]
    | succ j =>
      have hj : es[j]? = some (v, false) := by simpa using h
      rw [markEntries_cons_succ]
      rcases e with ⟨w, d⟩
      have hih := ih hj
      cases d <;> simp [countDeleted, List.filter] at hih ⊢ <;> omega

theorem markNth_allEntries (l : ListState) (j : Nat) :
    (l.markNth j).allEntries = markEntries l.allEntries j ∧
    (l.markNth j).total = l.total ∧
    (l.markNth j).deleted = l.deleted + 1 := by
  unfold ListState.markNth
  split_ifs with h
  · refine ⟨?_, rfl, rfl⟩
    simp only [ListState.allEntries, tailEntries]
    rw [markInBlocks_flatten, markEntries_append_left _ _ _ (by omega)]
  · refine ⟨?_, rfl, rfl⟩
    simp only [ListState.allEntries, tailEntries]
    rw [markEntries_append_right _ _ _ (by omega)]
    cases ht : l.tail with
    | none => simp [markEntries_nil]
    | some t => simp

/-- The list states reachable from a fresh list by any interleaving of append
(`List::Add`), flush (`List::Flush`) and tombstoning of a currently
non-tombstoned value (`List::Iter<false>::Delete`). -/
inductive Reachable (blockSize : Nat) : ListState → Prop
  | empty : Reachable blockSize ListState.empty
  | add (l l' : ListState) (v : Bytes) : Reachable blockSize l →
      l.add blockSize v = some l' → Reachable blockSize l'
  | flush (l : ListState) : Reachable blockSize l →
      Reachable blockSize l.flush
  | remove (l : ListState) (j : Nat) (v : Bytes) : Reachable blockSize l →
      l.allEntries[j]? = some (v, false) → Reachable blockSize (l.markNth j)

theorem reachable_counters {blockSize : Nat} {l : ListState}
    (h : Reachable blockSize l) :
    l.total = l.allEntries.length ∧ l.deleted = countDeleted l.allEntries := by
  induction h with
  | empty => exact ⟨rfl, rfl⟩
  | add l l' v _ hadd ih =>
    obtain ⟨he, ht, hd⟩ := add_allEntries hadd
    refine ⟨?_, ?_⟩
    · rw [ht, he, ih.1]; simp
    · rw [hd, he, ih.2]; simp [countDeleted]
  | flush l _ ih =>
    obtain ⟨he, ht, hd⟩ := flush_allEntries l
    rw [he, ht, hd]; exact ih
  | remove l j v _ hj ih =>
    obtain ⟨he, ht, hd⟩ := markNth_allEntries l j
    refine ⟨?_, ?_⟩
    · rw [ht, he, length_markEntries, ih.1]
    · rw [hd, he, countDeleted_markEntries hj, ih.2]

theorem countDeleted_add_countVisible (es : List (Bytes × Bool)) :
    countDeleted es + (es.filter (fun e => !e.2)).length = es.length := by
  induction es with
  | nil => rfl
  | cons e es ih =>
    rcases e with ⟨w, d⟩
    cases d <;> simp [countDeleted, List.filter] at * <;> omega

/-- C2: in every reachable list state (any interleaving of append, tombstone
and flush), `num_values_deleted` never exceeds `num_values_total`, and their
difference is exactly the number of values a full iteration yields
(tombstoned values are skipped). -/
theorem counters_invariant (blockSize : Nat) (l : ListState)
    (h : Reachable blockSize l) :
    l.deleted ≤ l.total ∧ l.total - l.deleted = l.iterate.length := by
  obtain ⟨ht, hd⟩ := reachable_counters h
  have hsplit := countDeleted_add_countVisible l.allEntries
  have hlen : l.iterate.length = (l.allEntries.filter (fun e => !e.2)).length := by
    simp [ListState.iterate]
  omega

theorem counters_invariant_witness :
    ((ListState.mk [] (some ⟨[([1], false)]⟩) 1 0).markNth 0).deleted ≤
      ((ListState.mk [] (some ⟨[([1], false)]⟩) 1 0).markNth 0).total ∧
    ((ListState.mk [] (some ⟨[([1], false)]⟩) 1 0).markNth 0).total -
      ((ListState.mk [] (some ⟨[([1], false)]⟩) 1 0).markNth 0).deleted =
      ((ListState.mk [] (some ⟨[([1], false)]⟩) 1 0).markNth 0).iterate.length :=
  counters_invariant 512 _
    (Reachable.remove _ 0 [1]
      (Reachable.add ListState.empty _ [1] Reachable.empty (by decide))
      (by decide))

/-- Error kinds surfaced by the engine. -/
inductive Err
  | invalid_argument
  | assertion_failed
  | version_mismatch
deriving Repr, DecidableEq

/-- Modelled from the spec: the oversize-value rejection on the put path.
The value-size validation of the list append used by `put` is not among the
analysed sources (they hold its tests and its caller `Shard::put`); per the
spec, put rejects a value whose size exceeds `max_value_size(block_size)`
with `invalid_argument` before touching the list, and otherwise delegates to
`List::Add` as embedded above (whose retry assertion is the second error
case). -/
def putValue (blockSize : Nat) (l : ListState) (v : Bytes) :
    Option Err × ListState :=
  if maxValueSize blockSize < v.length then (some .invalid_argument, l)
  else
    match l.add blockSize v with
    | some l' => (none, l')
    | none => (some .assertion_failed, l)

/-- C3: a put of a value larger than `max_value_size(block_size)` fails with
`invalid_argument` and leaves the list state unchanged, hence the same
visible values and the same counters as before the call. -/
theorem oversize_put_rejected (blockSize : Nat) (l : ListState) (v : Bytes)
    (h : maxValueSize blockSize < v.length) :
    putValue blockSize l v = (some .invalid_argument, l) := by
  simp [putValue, h]

theorem oversize_put_rejected_witness :
    putValue 512 ListState.empty (List.replicate 600 0) =
      (some .invalid_argument, ListState.empty) :=
  oversize_put_rejected 512 ListState.empty _
    (by norm_num [maxValueSize, varintLen])

/-- Little-endian four-byte encoding of a 32-bit value, as written by
`writeUint32` in the UintVector sources. -/
def u32le (n : Nat) : List Nat :=
  [n % 256, n / 256 % 256, n / 65536 % 256, n / 16777216 % 256]

/-- Decode the little-endian four-byte raw tail of a UintVector buffer, as
read by `readUint32` in the UintVector sources. -/
def readUint32 (bs : List Nat) : Nat :=
  bs.getD 0 0 + 256 * bs.getD 1 0 + 65536 * bs.getD 2 0 +
    16777216 * bs.getD 3 0

/-- Modelled from the spec: the `Varint::writeUint` byte encoding (the Varint
implementation is not among the analysed sources): little-endian 7-bit
groups, the high bit of a byte set when another byte follows, unrolled over
the at most five groups of a 32-bit value. -/
def varintEnc (n : Nat) : List Nat :=
  if n < 128 then [n]
  else if n < 16384 then [n % 128 + 128, n / 128]
  else if n < 2097152 then [n % 128 + 128, n / 128 % 128 + 128, n / 16384]
  else if n < 268435456 then
    [n % 128 + 128, n / 128 % 128 + 128, n / 16384 % 128 + 128, n / 2097152]
  else
    [n % 128 + 128, n / 128 % 128 + 128, n / 16384 % 128 + 128,
     n / 2097152 % 128 + 128, n / 268435456]

/-- `Varint::Limits::N4_MAX_UINT`, the largest value whose varint encoding
fits four bytes: `2^28 - 1` (the `varint_max` of the spec). -/
def N4_MAX_UINT : Nat := 268435455

/-- State of a `UintVector`: the first `offset_` meaningful bytes of its
buffer.  Growth of the backing allocation in `allocateMoreIfFull` copies
exactly these bytes and is otherwise unobservable, so `offset_` is the length
of `data`. -/
structure UintVector where
  data : List Nat
deriving Repr, DecidableEq

def UintVector.offset (u : UintVector) : Nat := u.data.length

/-- `UintVector::add` from the UintVector sources: on an empty vector, write
the varint of the value followed by its four raw tail bytes when it does not
exceed `N4_MAX_UINT`, else return false unchanged.  On a non-empty vector the
code first rewinds `offset_` by four bytes onto the raw tail holding the
previous value; on success it overwrites from there with the varint of the
delta followed by the new raw tail; when the delta exceeds `N4_MAX_UINT` it
returns false with `offset_` left rewound.  The `none` result models the
`MT_ASSERT_LT(prev_value, value)` assertion firing. -/
def UintVector.add (u : UintVector) (value : Nat) :
    Option (Bool × UintVector) :=
  if u.data.isEmpty then
    if value ≤ N4_MAX_UINT then
      some (true, ⟨varintEnc value ++ u32le value⟩)
    else
      some (false, u)
  else
    let pruned := u.data.take (u.data.length - 4)
    let prev := readUint32 (u.data.drop (u.data.length - 4))
    if prev < value then
      if value - prev ≤ N4_MAX_UINT then
        some (true, ⟨pruned ++ varintEnc (value - prev) ++ u32le value⟩)
      else
        some (false, ⟨pruned⟩)
    else none

/-- C6: evaluation of `UintVector::add` at a failing input.  After `add(5)`
on a fresh vector the buffer holds the varint byte `5` plus the four raw tail
bytes; `add(5 + 2^28)` has delta `2^28 > N4_MAX_UINT` and returns false, but
the vector has lost its four tail bytes: its offset shrank from 5 to 1, so
the observable state is not left unchanged. -/
theorem uintvector_failed_add_changes_state :
    UintVector.add ⟨[]⟩ 5 = some (true, ⟨[5, 5, 0, 0, 0]⟩) ∧
    UintVector.add ⟨[5, 5, 0, 0, 0]⟩ 268435461 = some (false, ⟨[5]⟩) ∧
    (⟨[5]⟩ : UintVector).offset ≠ (⟨[5, 5, 0, 0, 0]⟩ : UintVector).offset := by
  decide

/-- Modelled from the spec: `mt::fnv1aHash` (the mt utility library is not
among the analysed sources): the 32-bit FNV-1a hash of the key bytes, offset
basis 2166136261 and prime 16777619, truncated to 32 bits. -/
def fnv1aHash (key : Bytes) : Nat :=
  key.foldl (fun h b => ((h ^^^ b) * 16777619) % 4294967296) 2166136261

/-- `Map::getPartition`: the partition index a key is routed to,
`fnv1aHash(key) mod partitions_.size()`. -/
def getPartition (numPartitions : Nat) (key : Bytes) : Nat :=
  fnv1aHash key % numPartitions

/-- Replace the element at index `i` by its image under `f` (identity when
out of range): the effect of a single-key operation on the partition array. -/
def modifyAt {α : Type} : List α → Nat → (α → α) → List α
  | [], _, _ => []
  | a :: as, 0, f => f a :: as
  | a :: as, n + 1, f => a :: modifyAt as n f

/-- The dispatch of a single-key operation by `Map::getPartition`: apply the
operation to the partition selected by the key hash, leaving every other
partition untouched. -/
def Map.dispatch {α : Type} (parts : List α) (key : Bytes) (f : α → α) :
    List α :=
  modifyAt parts (getPartition parts.length key) f

theorem modifyAt_getElem_self {α : Type} (as : List α) (i : Nat)
    (f : α → α) : (modifyAt as i f)[i]? = (as[i]?).map f := by
  induction as generalizing i with
  | nil => simp [modifyAt]
  | cons a as ih =>
    cases i with
    | zero => simp [modifyAt]
    | succ i => simpa [modifyAt] using ih i

theorem modifyAt_getElem_ne {α : Type} (as : List α) (i j : Nat)
    (f : α → α) (h : j ≠ i) : (modifyAt as i f)[j]? = as[j]? := by
  induction as generalizing i j with
  | nil => simp [modifyAt]
  | cons a as ih =>
    cases i with
    | zero =>
      cases j with
      | zero => exact absurd rfl h
      | succ j => simp [modifyAt]
    | succ i =>
      cases j with
      | zero => simp [modifyAt]
      | succ j => simpa [modifyAt] using ih i j (by omega)

/-- C7: a single-key operation is routed to the partition with index
`fnv1a_hash_32(key) mod num_partitions`: that partition receives the
operation and every other partition is untouched.  The index is a pure
function of the key bytes and the partition count, so two invocations with
the same key and the same partition count dispatch identically. -/
theorem dispatch_routes_by_hash {α : Type} (parts : List α) (key : Bytes)
    (f : α → α) (j : Nat) (hj : j ≠ getPartition parts.length key) :
    getPartition parts.length key = fnv1aHash key % parts.length ∧
    (Map.dispatch parts key f)[getPartition parts.length key]?
      = (parts[getPartition parts.length key]?).map f ∧
    (Map.dispatch parts key f)[j]? = parts[j]? := by
  refine ⟨rfl, modifyAt_getElem_self parts _ f, ?_⟩
  exact modifyAt_getElem_ne parts _ j f hj

theorem dispatch_routes_by_hash_witness :
    getPartition [10, 20, 30].length [0]
        = fnv1aHash [0] % [10, 20, 30].length ∧
    (Map.dispatch [10, 20, 30] [0] (fun x => x + 1))[getPartition
        [10, 20, 30].length [0]]?
      = ([10, 20, 30][getPartition [10, 20, 30].length [0]]?).map
          (fun x => x + 1) ∧
    (Map.dispatch [10, 20, 30] [0] (fun x => x + 1))[5]? = [10, 20, 30][5]? :=
  dispatch_routes_by_hash [10, 20, 30] [0] (fun x => x + 1) 5 (by decide)

/-- `mt::check`: succeed exactly when the condition holds, else fail with the
given error. -/
def mtCheck (cond : Bool) (e : Err) : Except Err Unit :=
  if cond then .ok () else .error e

/-- `Version::checkCompatibility` from the Version sources: check
`major == MAJOR && minor <= MINOR` against the linked library versions. -/
def Version.checkCompatibility (MAJOR MINOR major minor : Nat) :
    Except Err Unit :=
  mtCheck ((major == MAJOR) && decide (minor ≤ MINOR)) .version_mismatch

/-- C10: the version check passes if and only if the recorded major version
equals the linked library major and the recorded minor version is at most the
linked library minor; in every other case it fails with `version_mismatch`. -/
theorem version_check_iff (MAJOR MINOR major minor : Nat) :
    (Version.checkCompatibility MAJOR MINOR major minor = .ok () ↔
      (major = MAJOR ∧ minor ≤ MINOR)) ∧
    (Version.checkCompatibility MAJOR MINOR major minor = .ok () ∨
     Version.checkCompatibility MAJOR MINOR major minor =
       .error .version_mismatch) := by
  unfold Version.checkCompatibility mtCheck
  by_cases h1 : major = MAJOR <;> by_cases h2 : minor ≤ MINOR <;>
    simp [h1, h2]

/-- Modelled from the spec: `List::size` and `List::empty` (the List header
is not among the analysed sources; in them `Shard::remove` reports the number
of removed values as `size()` and the stats collection distinguishes empty
lists): the size of a list is its number of valid values,
`num_values_total - num_values_deleted`, and a list is empty when that count
is zero. -/
def ListState.isEmpty (l : ListState) : Bool := l.total - l.deleted == 0

/-- One key table entry: the key, its list, and whether the list is currently
locked by some other holder, making the `tryLockUnique` of close fail. -/
structure TEntry where
  key : Bytes
  list : ListState
  locked : Bool
deriving Repr, DecidableEq

/-- A partition key table (`map_` of `Table`) in memory. -/
structure TableState where
  entries : List TEntry
deriving Repr, DecidableEq

/-- An on-disk keys file: the `u32 num_keys` count at its head followed by
the records `(key, serialised list head)`.  A record stores the flushed
list: committed blocks and counters with the tail absent, which is exactly
the state `Table::open` reconstructs from a head. -/
structure KeysFile where
  count : Nat
  records : List (Bytes × ListState)
deriving Repr, DecidableEq

/-- The disk as seen by one partition: the keys file and the optional `.old`
backup that exists while a close is in progress. -/
structure Disk where
  keysFile : KeysFile
  backup : Option KeysFile
deriving Repr, DecidableEq

/-- The records written by `Table::close` from
`src/cpp/multimap/internal/Table.cpp` lines 133-147: for each entry whose
list lock could be acquired and whose list is non-empty, the list is flushed
and `(key, head)` written; locked lists are skipped with a log message, and
empty lists are silently not written. -/
def closeRecords (ts : TableState) : List (Bytes × ListState) :=
  ts.entries.filterMap (fun e =>
    if !e.locked && !e.list.isEmpty then some (e.key, e.list.flush)
    else none)

/-- The keys file produced by `Table::close` (lines 129-152): the count
written up front is `map_.size()`; when the number of records actually
written differs, the file is rewound and the count overwritten with that
number. -/
def closeNewFile (ts : TableState) : KeysFile :=
  { count := if (closeRecords ts).length ≠ ts.entries.length
             then (closeRecords ts).length else ts.entries.length,
    records := closeRecords ts }

/-- The disk after the new keys file is fully written but before the final
`std::remove` of the backup (between lines 130 and 154): the original keys
file was renamed to `.old` at the start of close and is still present. -/
def closeAfterWrite (ts : TableState) (d : Disk) : Disk :=
  { keysFile := closeNewFile ts, backup := some d.keysFile }

/-- `Table::close` (lines 115-160) as a whole: rename the keys file to the
`.old` backup, write the new keys file in its place, fix up the count, then
remove the backup. -/
def Table.close (ts : TableState) (d : Disk) : Disk :=
  { closeAfterWrite ts d with backup := none }

/-- `Table::open` (lines 91-100) on an existing keys file: read the `u32`
count, then reconstruct a list from each of that many records. -/
def Table.open (f : KeysFile) : List (Bytes × ListState) :=
  f.records.take f.count

theorem mem_closeRecords_iff (ts : TableState) (k : Bytes) :
    k ∈ (closeRecords ts).map Prod.fst ↔
      ∃ e ∈ ts.entries, e.key = k ∧ e.locked = false ∧
        e.list.isEmpty = false := by
  simp only [closeRecords, List.map_filterMap, List.mem_filterMap]
  constructor
  · rintro ⟨e, he, hg⟩
    rcases hl : e.locked with _ | _ <;> rcases hemp : e.list.isEmpty with _ | _ <;>
      simp [hl, hemp] at hg
    exact ⟨e, he, hg, hl, hemp⟩
  · rintro ⟨e, he, hkey, hlock, hemp⟩
    exact ⟨e, he, by simp [hlock, hemp, hkey]⟩

theorem closeNewFile_count (ts : TableState) :
    (closeNewFile ts).count = (closeNewFile ts).records.length := by
  unfold closeNewFile
  split_ifs with h <;> simp_all

/-- C9: the keys file written by close lists exactly the keys whose list was
unlockable and non-empty, its head count equals the number of records
actually written, and a key whose values were all removed (an empty list) is
absent from the persisted table and hence gone after reopen. -/
theorem close_persists_exactly_nonempty_keys (ts : TableState) (k : Bytes)
    (hk : ∀ e ∈ ts.entries, e.key = k → e.locked = false →
      e.list.isEmpty = true) :
    (closeNewFile ts).count = (closeNewFile ts).records.length ∧
    (∀ k', k' ∈ (closeNewFile ts).records.map Prod.fst ↔
      ∃ e ∈ ts.entries, e.key = k' ∧ e.locked = false ∧
        e.list.isEmpty = false) ∧
    k ∉ (Table.open (closeNewFile ts)).map Prod.fst := by
  refine ⟨closeNewFile_count ts, fun k' => mem_closeRecords_iff ts k', ?_⟩
  intro hmem
  have hopen : Table.open (closeNewFile ts) = (closeNewFile ts).records := by
    unfold Table.open
    rw [closeNewFile_count ts]
    simp
  rw [hopen] at hmem
  obtain ⟨e, he, hkey, hlock, hemp⟩ := (mem_closeRecords_iff ts k).mp hmem
  rw [hk e he hkey hlock] at hemp
  cases hemp

theorem close_persists_exactly_nonempty_keys_witness :
    (closeNewFile ⟨[⟨[97], ⟨[], none, 2, 2⟩, false⟩,
        ⟨[98], ⟨[], some ⟨[([1], false)]⟩, 1, 0⟩, false⟩]⟩).count =
      (closeNewFile ⟨[⟨[97], ⟨[], none, 2, 2⟩, false⟩,
        ⟨[98], ⟨[], some ⟨[([1], false)]⟩, 1, 0⟩, false⟩]⟩).records.length ∧
    (∀ k', k' ∈ (closeNewFile ⟨[⟨[97], ⟨[], none, 2, 2⟩, false⟩,
        ⟨[98], ⟨[], some ⟨[([1], false)]⟩, 1, 0⟩,
          false⟩]⟩).records.map Prod.fst ↔
      ∃ e ∈ (TableState.mk [⟨[97], ⟨[], none, 2, 2⟩, false⟩,
        ⟨[98], ⟨[], some ⟨[([1], false)]⟩, 1, 0⟩, false⟩]).entries,
        e.key = k' ∧ e.locked = false ∧ e.list.isEmpty = false) ∧
    [97] ∉ (Table.open (closeNewFile ⟨[⟨[97], ⟨[], none, 2, 2⟩, false⟩,
      ⟨[98], ⟨[], some ⟨[([1], false)]⟩, 1, 0⟩,
        false⟩]⟩)).map Prod.fst :=
  close_persists_exactly_nonempty_keys
    ⟨[⟨[97], ⟨[], none, 2, 2⟩, false⟩,
      ⟨[98], ⟨[], some ⟨[([1], false)]⟩, 1, 0⟩, false⟩]⟩ [97] (by decide)

/-- A table holding a single key whose list is non-empty but locked. -/
def lockedCloseTable : TableState :=
  ⟨[⟨[107], ⟨[], some ⟨[([1], false)]⟩, 1, 0⟩, true⟩]⟩

/-- A pre-close disk whose keys file persists that key. -/
def lockedCloseDisk : Disk :=
  ⟨⟨1, [([107], ⟨[⟨[([1], false)]⟩], none, 1, 0⟩)]⟩, none⟩

/-- C5 counterexample: close of a table whose only list is locked skips that
list, yet the keys file on disk afterwards differs from the pre-close keys
file, and the backup holding the original is removed — the original keys
file is not left unchanged on disk. -/
theorem close_locked_list_changes_keys_file :
    (∃ e ∈ lockedCloseTable.entries, e.locked = true) ∧
    (Table.close lockedCloseTable lockedCloseDisk).keysFile ≠
      lockedCloseDisk.keysFile ∧
    (Table.close lockedCloseTable lockedCloseDisk).backup = none := by
  decide

/-- C5 amended: during close, a list whose unique lock cannot be acquired is
skipped (it is not written to the replacement keys file); the original keys
file does not remain unchanged in place — it is renamed to a `.old` backup
that is kept until the replacement keys file has fully landed and is removed
once close completes. -/
theorem close_skips_locked_and_backs_up (ts : TableState) (d : Disk)
    (k : Bytes) (hk : ∀ e ∈ ts.entries, e.key = k → e.locked = true) :
    k ∉ (closeNewFile ts).records.map Prod.fst ∧
    (closeAfterWrite ts d).backup = some d.keysFile ∧
    (Table.close ts d).backup = none := by
  refine ⟨?_, rfl, rfl⟩
  intro hmem
  obtain ⟨e, he, hkey, hlock, -⟩ := (mem_closeRecords_iff ts k).mp hmem
  rw [hk e he hkey] at hlock
  cases hlock

theorem close_skips_locked_and_backs_up_witness :
    [107] ∉ (closeNewFile lockedCloseTable).records.map Prod.fst ∧
    (closeAfterWrite lockedCloseTable lockedCloseDisk).backup =
      some lockedCloseDisk.keysFile ∧
    (Table.close lockedCloseTable lockedCloseDisk).backup = none :=
  close_skips_locked_and_backs_up lockedCloseTable lockedCloseDisk [107]
    (by decide)

/-- One pass of the marking loop of `Shard::replace` over an entry sequence:
while marking is allowed, a visible (non-tombstoned) value on which the map
function produces a replacement is tombstoned and the replacement collected;
after a match, marking stays allowed only in apply-to-all mode (the
replaceFirst variant breaks out of the first loop and skips the second).
Returns the final allowed flag, the marked entries and the collected
replacement values in match order. -/
def entriesMark (f : Bytes → Option Bytes) (all : Bool) :
    Bool → List (Bytes × Bool) → Bool × List (Bytes × Bool) × List Bytes
  | allowed, [] => (allowed, [], [])
  | allowed, (v, d) :: rest =>
    if allowed && !d && (f v).isSome then
      let r := entriesMark f all all rest
      (r.1, (v, true) :: r.2.1, (f v).getD [] :: r.2.2)
    else
      let r := entriesMark f all allowed rest
      (r.1, (v, d) :: r.2.1, r.2.2)

/-- The marking pass across the committed blocks, each modified block written
back via `store.replace`. -/
def blocksMark (f : Bytes → Option Bytes) (all : Bool) :
    Bool → List Block → Bool × List Block × List Bytes
  | allowed, [] => (allowed, [], [])
  | allowed, b :: bs =>
    let r1 := entriesMark f all allowed b.entries
    let r2 := blocksMark f all r1.1 bs
    (r2.1, ⟨r1.2.1⟩ :: r2.2.1, r1.2.2 ++ r2.2.2)

/-- The marking pass over the in-memory tail block, modified in place. -/
def tailMark (f : Bytes → Option Bytes) (all : Bool) (allowed : Bool) :
    Option Block → Bool × Option Block × List Bytes
  | none => (allowed, none, [])
  | some t =>
    let r := entriesMark f all allowed t.entries
    (r.1, some ⟨r.2.1⟩, r.2.2)

/-- `Shard::replace` from the Shard sources lines 270-300: iterate over the
list, tombstone each value selected by the map function (the first one only,
or all of them when `apply_to_all`), collecting the mapped replacement
values; afterwards append the collected values at the end of the list via
`List::Add`; return their number.  Each tombstoning increments
`num_values_deleted` as in `Iter<false>::Delete`. -/
def ListState.replace (blockSize : Nat) (f : Bytes → Option Bytes)
    (all : Bool) (l : ListState) : Option (ListState × Nat) :=
  let rc := blocksMark f all true l.committed
  let rt := tailMark f all rc.1 l.tail
  let collected := rc.2.2 ++ rt.2.2
  let l1 : ListState :=
    { committed := rc.2.1, tail := rt.2.1, total := l.total,
      deleted := l.deleted + collected.length }
  (l1.addAll blockSize collected).map (fun l2 => (l2, collected.length))

theorem entriesMark_append (f : Bytes → Option Bytes) (all : Bool)
    (allowed : Bool) (xs ys : List (Bytes × Bool)) :
    entriesMark f all allowed (xs ++ ys) =
      ((entriesMark f all (entriesMark f all allowed xs).1 ys).1,
       (entriesMark f all allowed xs).2.1 ++
         (entriesMark f all (entriesMark f all allowed xs).1 ys).2.1,
       (entriesMark f all allowed xs).2.2 ++
         (entriesMark f all (entriesMark f all allowed xs).1 ys).2.2) := by
  induction xs generalizing allowed with
  | nil => simp [entriesMark]
  | cons e xs ih =>
    rcases e with ⟨v, d⟩
    by_cases h : (allowed && !d && (f v).isSome) = true
    · simp [entriesMark, h, ih all]
    · simp [entriesMark, h, ih allowed]

theorem blocksMark_flatten (f : Bytes → Option Bytes) (all : Bool)
    (allowed : Bool) (bs : List Block) :
    (blocksMark f all allowed bs).1 =
      (entriesMark f all allowed (bs.map Block.entries).flatten).1 ∧
    ((blocksMark f all allowed bs).2.1.map Block.entries).flatten =
      (entriesMark f all allowed (bs.map Block.entries).flatten).2.1 ∧
    (blocksMark f all allowed bs).2.2 =
      (entriesMark f all allowed (bs.map Block.entries).flatten).2.2 := by
  induction bs generalizing allowed with
  | nil => simp [blocksMark, entriesMark]
  | cons b bs ih =>
    rw [List.map_cons, List.flatten_cons, entriesMark_append]
    obtain ⟨h1, h2, h3⟩ := ih (entriesMark f all allowed b.entries).1
    exact ⟨h1, by simp [blocksMark, h2], by simp [blocksMark, h3]⟩

theorem entriesMark_map_fst (f : Bytes → Option Bytes) (all : Bool)
    (allowed : Bool) (es : List (Bytes × Bool)) :
    (entriesMark f all allowed es).2.1.map Prod.fst = es.map Prod.fst := by
  induction es generalizing allowed with
  | nil => simp [entriesMark]
  | cons e es ih =>
    rcases e with ⟨v, d⟩
    by_cases h : (allowed && !d && (f v).isSome) = true
    · simp [entriesMark, h, ih all]
    · simp [entriesMark, h, ih allowed]

theorem replace_marked_parts (f : Bytes → Option Bytes) (all : Bool)
    (l : ListState) :
    ((blocksMark f all true l.committed).2.1.map Block.entries).flatten ++
        (((tailMark f all (blocksMark f all true l.committed).1
            l.tail).2.1.map Block.entries).getD [])
      = (entriesMark f all true l.allEntries).2.1 ∧
    (blocksMark f all true l.committed).2.2 ++
        (tailMark f all (blocksMark f all true l.committed).1 l.tail).2.2
      = (entriesMark f all true l.allEntries).2.2 := by
  obtain ⟨h1, h2, h3⟩ := blocksMark_flatten f all true l.committed
  rw [ListState.allEntries]
  cases ht : l.tail with
  | none =>
    rw [entriesMark_append]
    refine ⟨?_, ?_⟩ <;>
      simp [tailMark, tailEntries, ht, entriesMark, h1, h2, h3]
  | some t =>
    rw [entriesMark_append]
    refine ⟨?_, ?_⟩ <;>
      simp [tailMark, tailEntries, ht, h1, h2, h3]

theorem addAll_eq_some {blockSize : Nat} {vs : List Bytes}
    {l l' : ListState} (h : l.addAll blockSize vs = some l') :
    l'.allEntries = l.allEntries ++ vs.map (fun v => (v, false)) ∧
    l'.total = l.total + vs.length ∧ l'.deleted = l.deleted := by
  induction vs generalizing l with
  | nil =>
    have : l = l' := by simpa [ListState.addAll] using h
    subst this
    simp
  | cons v vs ih =>
    have h' : (l.add blockSize v).bind
        (fun l1 => l1.addAll blockSize vs) = some l' := by
      simpa [ListState.addAll, List.foldlM_cons] using h
    obtain ⟨l1, h1, h2⟩ := Option.bind_eq_some.mp h'
    obtain ⟨he1, ht1, hd1⟩ := add_allEntries h1
    obtain ⟨he2, ht2, hd2⟩ := ih h2
    refine ⟨?_, ?_, ?_⟩
    · rw [he2, he1]; simp
    · rw [ht2, ht1]; simp [List.length_cons]; omega
    · rw [hd2, hd1]

theorem map_fst_pairs (ws : List Bytes) :
    (ws.map (fun w => (w, false))).map Prod.fst = ws := by
  induction ws with
  | nil => rfl
  | cons w ws ih => simp [ih]

/-- C8: `replace` never rewrites a value in place.  Each value selected for
replacement is tombstoned at its original position, the mapped replacement
values are appended at the end of the list, the returned count is their
number, and both counters grow by that number. -/
theorem replace_tombstones_and_appends (blockSize : Nat)
    (f : Bytes → Option Bytes) (all : Bool) (l l' : ListState) (n : Nat)
    (h : l.replace blockSize f all = some (l', n)) :
    l'.allEntries = (entriesMark f all true l.allEntries).2.1 ++
      (entriesMark f all true l.allEntries).2.2.map (fun w => (w, false)) ∧
    l'.allEntries.map Prod.fst = l.allEntries.map Prod.fst ++
      (entriesMark f all true l.allEntries).2.2 ∧
    n = (entriesMark f all true l.allEntries).2.2.length ∧
    l'.total = l.total + n ∧ l'.deleted = l.deleted + n := by
  obtain ⟨hm, hc⟩ := replace_marked_parts f all l
  simp only [ListState.replace] at h
  obtain ⟨l2, h2, h3⟩ := Option.map_eq_some'.mp h
  cases h3
  obtain ⟨he2, ht2, hd2⟩ := addAll_eq_some h2
  have hall1 : (ListState.allEntries
      { committed := (blocksMark f all true l.committed).2.1,
        tail := (tailMark f all (blocksMark f all true l.committed).1
          l.tail).2.1,
        total := l.total,
        deleted := l.deleted + ((blocksMark f all true l.committed).2.2 ++
          (tailMark f all (blocksMark f all true l.committed).1
            l.tail).2.2).length })
      = (entriesMark f all true l.allEntries).2.1 := by
    rw [ListState.allEntries, tailEntries]
    exact hm
  refine ⟨?_, ?_, ?_, ?_, ?_⟩
  · rw [he2, hall1, hc]
  · rw [he2, hall1]
    rw [List.map_append, entriesMark_map_fst, hc]
    congr 1
    exact map_fst_pairs _
  · rw [hc]
  · simp [ht2]
  · simp [hd2]

theorem replace_tombstones_and_appends_witness :
    (ListState.mk [] (some ⟨[([1], true), ([3], false), ([2], false)]⟩) 3
        1).allEntries =
      (entriesMark (fun v => if v = [1] then some [2] else none) true true
        (ListState.mk [] (some ⟨[([1], false), ([3], false)]⟩) 2
          0).allEntries).2.1 ++
      (entriesMark (fun v => if v = [1] then some [2] else none) true true
        (ListState.mk [] (some ⟨[([1], false), ([3], false)]⟩) 2
          0).allEntries).2.2.map (fun w => (w, false)) ∧
    (ListState.mk [] (some ⟨[([1], true), ([3], false), ([2], false)]⟩) 3
        1).allEntries.map Prod.fst =
      (ListState.mk [] (some ⟨[([1], false), ([3], false)]⟩) 2
        0).allEntries.map Prod.fst ++
      (entriesMark (fun v => if v = [1] then some [2] else none) true true
        (ListState.mk [] (some ⟨[([1], false), ([3], false)]⟩) 2
          0).allEntries).2.2 ∧
    1 = (entriesMark (fun v => if v = [1] then some [2] else none) true true
      (ListState.mk [] (some ⟨[([1], false), ([3], false)]⟩) 2
        0).allEntries).2.2.length ∧
    (ListState.mk [] (some ⟨[([1], true), ([3], false), ([2], false)]⟩) 3
        1).total =
      (ListState.mk [] (some ⟨[([1], false), ([3], false)]⟩) 2 0).total + 1 ∧
    (ListState.mk [] (some ⟨[([1], true), ([3], false), ([2], false)]⟩) 3
        1).deleted =
      (ListState.mk [] (some ⟨[([1], false), ([3], false)]⟩) 2 0).deleted +
        1 :=
  replace_tombstones_and_appends 512
    (fun v => if v = [1] then some [2] else none) true
    (ListState.mk [] (some ⟨[([1], false), ([3], false)]⟩) 2 0)
    (ListState.mk [] (some ⟨[([1], true), ([3], false), ([2], false)]⟩) 3 1)
    1 (by decide)

end Multimap
